import Mathlib

/-!
Shallow embedding of the flashcards repository (flashcards/flashcards.py and
flashcards/__main__.py).  Python numbers (ints and floats) are modelled as
exact rationals; Python sets as `Finset`; the reportlab `stringWidth` oracle
as an arbitrary function `String → ℚ`; `random.randint` as an arbitrary
oracle `ℤ → ℤ → ℕ → ℤ` indexed by draw time.  The Python value `None` that
lives in the seen-words set alongside strings is modelled by `Option String`
(`none` for `None`, `some w` for the string `w`).
-/

namespace Flashcards

/-- The relevant slice of the per-group config object built in
`flashcards/__main__.py` (argparse defaults, possibly overridden per group).
`ascent` and `descent` are the raw metrics of the typeface
(`face.ascent` / `face.descent`, per 1000 units) that
`get_word_centered_position` reads from the font registry. -/
structure Config where
  font_size : ℚ
  page_width : ℚ
  page_height : ℚ
  max_allowed_text_width_ratio : ℚ
  allow_repeated : Bool
  disable_reduce_to_fit : Bool
  ascent : ℚ
  descent : ℚ
deriving DecidableEq

/-- Millimetre in points, `reportlab.lib.units.mm = 72 / 25.4`, exactly. -/
def mm : ℚ := 360 / 127

/-- The argparse defaults of `flashcards/__main__.py` after the `* mm` page
size conversion: font size 250, page 440mm x 99mm, max width ratio 0.95,
both flags off.  Ascent/descent are the Helvetica face metrics. -/
def defaultConfig : Config where
  font_size := 250
  page_width := 440 * mm
  page_height := 99 * mm
  max_allowed_text_width_ratio := 19 / 20
  allow_repeated := false
  disable_reduce_to_fit := false
  ascent := 718
  descent := -207

/-- Python string comparison on the underlying character (code point)
lists: lexicographic.  Defined by structural recursion so that it evaluates
inside the kernel (the library order on `String` is equivalent, see
`pyStrLe_iff`, but is implemented with well-founded recursion). -/
def charListLe : List Char → List Char → Bool
  | [], _ => true
  | _ :: _, [] => false
  | a :: as, b :: bs => if a < b then true else if b < a then false else charListLe as bs

/-- Python `s1 <= s2` on strings. -/
def pyStrLe (a b : String) : Bool :=
  charListLe a.data b.data

/-- Python `sorted` on a list of strings: the sorted permutation of the
input (modelled with insertion sort, which computes; Python's timsort
produces the same list, as stability is unobservable on equal strings). -/
def pySorted (l : List String) : List String :=
  l.insertionSort (fun a b => pyStrLe a b = true)

/-- `extract_valid_words(words, already_seen_words, allow_repeated)` from
`flashcards/flashcards.py`.  If `allow_repeated` it returns
`(sorted(words), None)`.  Otherwise `words_in_group = set(words)`,
`repeated_words` are the words counted more than once,
`new_words = words_in_group - already_seen_words`,
`ignored_words = words_in_group - new_words`, and it returns
`(sorted(new_words), repeated_words | ignored_words)`.  The two list-valued
set computations (`set(words)` and the subtraction of the seen-set) are
modelled as `dedup` and `filter`; `ignored_words`, the members of
`set(words)` that are not in `new_words = set(words) - seen`, are exactly
the members of `set(words)` that are in `seen`. -/
def extract_valid_words (words : List String) (already_seen_words : Finset (Option String))
    (allow_repeated : Bool) : List String × Option (Finset String) :=
  if allow_repeated then
    (pySorted words, none)
  else
    let words_in_group : List String := words.dedup
    let repeated_words : Finset String := words.toFinset.filter (fun w => 1 < words.count w)
    let new_words : List String := words_in_group.filter (fun w => some w ∉ already_seen_words)
    let ignored_words : Finset String := words.toFinset.filter (fun w => some w ∈ already_seen_words)
    (pySorted new_words, some (repeated_words ∪ ignored_words))

/-- `reduce_font_size_to_fit(word, word_width, config)` from
`flashcards/flashcards.py`: `config.font_size * (config.page_width / word_width - 0.10)`. -/
def reduce_font_size_to_fit (word_width : ℚ) (config : Config) : ℚ :=
  config.font_size * (config.page_width / word_width - 1 / 10)

/-- The per-word font sizing branch of `generate` in
`flashcards/flashcards.py`: `none` when the word is skipped
(too wide and reduction disabled), otherwise the font size that is used
to draw the word. -/
def fit_font_size (config : Config) (word_width : ℚ) : Option ℚ :=
  if config.max_allowed_text_width_ratio < word_width / config.page_width then
    if config.disable_reduce_to_fit then none
    else some (reduce_font_size_to_fit word_width config)
  else some config.font_size

/-- Python `str.strip()`: remove leading and trailing whitespace, modelled
directly on the character list (the equivalent library `String.trim` is
implemented by well-founded recursion and does not evaluate in the kernel). -/
def pyStrip (s : String) : String :=
  ⟨((s.data.dropWhile Char.isWhitespace).reverse.dropWhile Char.isWhitespace).reverse⟩

/-- The word loop of `generate` in `flashcards/flashcards.py`.  Each word is
stripped, measured by the external `stringWidth` oracle `widthFn`, sized by
`fit_font_size`; a skipped word produces no page, otherwise one page is drawn
and the stripped word is yielded together with the font size used. -/
def generate (widthFn : String → ℚ) (config : Config) (words : List String) :
    List (String × ℚ) :=
  words.filterMap fun word =>
    (fit_font_size config (widthFn (pyStrip word))).map (fun fs => (pyStrip word, fs))

/-- One output group of the `__main__` loop: the group name, the valid word
list and the ignored-words report returned by `extract_valid_words`, and the
words actually emitted (yielded) by `generate`. -/
structure GroupResult where
  name : String
  valid : List String
  report : Option (Finset String)
  emitted : List String
deriving DecidableEq

/-- The group loop of `flashcards/__main__.py`: for each group run
`extract_valid_words` against the accumulated seen-set, generate its PDF,
and add the generated (emitted) words to the seen-set. -/
def processGroups (widthFn : String → ℚ) (config : Config) :
    List (String × List String) → Finset (Option String) →
    List GroupResult × Finset (Option String)
  | [], seen => ([], seen)
  | (g, ws) :: rest, seen =>
    let ex := extract_valid_words ws seen config.allow_repeated
    let emitted := (generate widthFn config ex.1).map Prod.fst
    let seen' := seen ∪ emitted.toFinset.image some
    let r := processGroups widthFn config rest seen'
    (⟨g, ex.1, ex.2, emitted⟩ :: r.1, r.2)

/-- `already_seen_words = set(["", None])` in `flashcards/__main__.py`. -/
def initial_seen : Finset (Option String) := {some "", none}

/-- The whole run of `flashcards/__main__.py`: groups are processed in the
order of `sorted(word_groups.items(), key=lambda x: x[0])`, starting from
`initial_seen`. -/
def mainRun (widthFn : String → ℚ) (config : Config)
    (word_groups : List (String × List String)) :
    List GroupResult × Finset (Option String) :=
  processGroups widthFn config
    (word_groups.insertionSort (fun a b => pyStrLe a.1 b.1 = true)) initial_seen

/-- Squared Euclidean distance.  `distance_between_points` in
`flashcards/flashcards.py` is `math.sqrt (distSq a b)`; every comparison the
program makes against the (nonnegative) threshold 45 is carried out here on
the squares, which is equivalent since `sqrt` is monotone, and keeps the
sampler executable. -/
def distSq (a b : ℚ × ℚ) : ℚ :=
  (a.1 - b.1) ^ 2 + (a.2 - b.2) ^ 2

/-- `overlaps(a, b, min_distance=45)`: `distance_between_points(a, b) < min_distance`. -/
def overlaps (a b : ℚ × ℚ) (min_distance : ℚ := 45) : Bool :=
  decide (distSq a b < min_distance ^ 2)

/-- `overlaps_any(proposed_dot, dots)` from `flashcards/flashcards.py`. -/
def overlaps_any (proposed_dot : ℚ × ℚ) (dots : List (ℚ × ℚ)) : Bool :=
  dots.any fun dot => overlaps dot proposed_dot

/-- `outside_page(position, config)` from `flashcards/flashcards.py`:
`safe_margin = font_size * 3.2` and the point is outside when it is closer
than that to any page edge. -/
def outside_page (position : ℚ × ℚ) (config : Config) : Bool :=
  let safe_margin := config.font_size * (16 / 5)
  decide (position.1 < safe_margin) || decide (position.2 < safe_margin) ||
    decide (config.page_width - position.1 < safe_margin) ||
    decide (config.page_height - position.2 < safe_margin)

/-- `get_word_centered_position(config, font_size)` from
`flashcards/flashcards.py`: horizontal page middle, vertical page middle
lowered by half of `font_height = ascent - descent` (metrics scaled from
per-1000 units). -/
def get_word_centered_position (config : Config) (font_size : ℚ) : ℚ × ℚ :=
  let ascent := config.ascent * font_size / 1000
  let descent := |config.descent| * font_size / 1000
  let font_height := ascent - descent
  (config.page_width / 2, config.page_height / 2 - font_height / 2)

/-- Python `int()` applied to an exact rational: truncation toward zero. -/
def pyInt (q : ℚ) : ℤ :=
  if 0 ≤ q then ⌊q⌋ else ⌈q⌉

/-- State of the inner `while len(dots) < dots_wanted` loop of
`generate_math`: the accepted dots so far, the current `attempt_number`,
and the number of `randint` draws consumed so far. -/
structure SampState where
  dots : List (ℚ × ℚ)
  attempt_number : ℕ
  t : ℕ
deriving DecidableEq

/-- One attempt of the `generate_math` loop: the (incremented)
`attempt_number` in force for the attempt, the candidate position drawn, and
whether it was accepted. -/
structure Attempt where
  attempt_number : ℕ
  position : ℚ × ℚ
  accepted : Bool
deriving DecidableEq

/-- One iteration of the `while` loop body of `generate_math` in
`flashcards/flashcards.py`:
`attempt_number += 1; reducer = int(attempt_number * font_size * 0.3);
x_max = min(reducer, page_width // 2); y_max = min(reducer, page_height // 2);
x_span = randint(-x_max, x_max); y_span = randint(-y_max, y_max);
position = center + (x_span, y_span)`, accepted iff the position is neither
outside the page nor overlapping an already placed dot.  `rand lo hi t` is
the external `random.randint(lo, hi)` oracle at draw time `t`. -/
def sampler_attempt (config : Config) (rand : ℤ → ℤ → ℕ → ℤ) (center : ℚ × ℚ)
    (s : SampState) : Attempt :=
  let an := s.attempt_number + 1
  let reducer : ℤ := pyInt ((an : ℚ) * config.font_size * (3 / 10))
  let x_max : ℤ := min reducer ⌊config.page_width / 2⌋
  let y_max : ℤ := min reducer ⌊config.page_height / 2⌋
  let x_span := rand (-x_max) x_max s.t
  let y_span := rand (-y_max) y_max (s.t + 1)
  let position : ℚ × ℚ := (center.1 + (x_span : ℚ), center.2 + (y_span : ℚ))
  ⟨an, position, !(outside_page position config || overlaps_any position s.dots)⟩

/-- State update of one `while` iteration: an accepted dot is appended and
`attempt_number` is reset to 5, a rejected attempt keeps the dots and keeps
the incremented `attempt_number`. -/
def sampler_step (config : Config) (rand : ℤ → ℤ → ℕ → ℤ) (center : ℚ × ℚ)
    (s : SampState) : SampState :=
  let a := sampler_attempt config rand center s
  if a.accepted then ⟨s.dots ++ [a.position], 5, s.t + 2⟩
  else ⟨s.dots, a.attempt_number, s.t + 2⟩

/-- The `while len(dots) < dots_wanted` loop of `generate_math`, run for at
most `fuel` iterations (the source loop has no iteration bound; every finite
prefix of its execution is reached by some `fuel`). -/
def sampler_run (config : Config) (rand : ℤ → ℤ → ℕ → ℤ) (center : ℚ × ℚ)
    (wanted : ℕ) : ℕ → SampState → SampState
  | 0, s => s
  | fuel + 1, s =>
    if s.dots.length < wanted then
      sampler_run config rand center wanted fuel (sampler_step config rand center s)
    else s

/-- The list of attempts the loop performs, in order. -/
def sampler_trace (config : Config) (rand : ℤ → ℤ → ℕ → ℤ) (center : ℚ × ℚ)
    (wanted : ℕ) : ℕ → SampState → List Attempt
  | 0, _ => []
  | fuel + 1, s =>
    if s.dots.length < wanted then
      sampler_attempt config rand center s ::
        sampler_trace config rand center wanted fuel (sampler_step config rand center s)
    else []

/-- The dots accepted for one target count in `generate_math`:
`center = get_word_centered_position(config, config.font_size)`, `dots = []`,
`attempt_number = 5` initially. -/
def generate_math_dots (config : Config) (rand : ℤ → ℤ → ℕ → ℤ)
    (wanted fuel : ℕ) : List (ℚ × ℚ) :=
  (sampler_run config rand (get_word_centered_position config config.font_size)
    wanted fuel ⟨[], 5, 0⟩).dots

/-- A reportlab color as produced by `parse_color` in
`flashcards/__main__.py`: either `HexColor(0x...)` holding the RGB integer,
or `PCMYKColor(c, m, y, k)`. -/
inductive Color where
  | HexColor (val : ℕ)
  | PCMYKColor (c m y k : ℕ)
deriving DecidableEq

/-- The character class `[A-Fa-f0-9]` of `COLOR_HEXA_PATTERN`. -/
def isHexDigitChar (c : Char) : Bool :=
  c.isDigit || ('a' ≤ c && c ≤ 'f') || ('A' ≤ c && c ≤ 'F')

/-- Attempt of `COLOR_HEXA_PATTERN = #([A-Fa-f0-9]{6}|[A-Fa-f0-9]{3})` at the
start of the text: a `#` followed by six hex digits (preferred alternative)
or by three; returns the captured group. -/
def hexMatchAt : List Char → Option (List Char)
  | [] => none
  | c :: rest =>
    if c = '#' then
      if (rest.take 6).length = 6 && (rest.take 6).all isHexDigitChar then
        some (rest.take 6)
      else if (rest.take 3).length = 3 && (rest.take 3).all isHexDigitChar then
        some (rest.take 3)
      else none
    else none

/-- `COLOR_HEXA_PATTERN.search`: try every start position from the left. -/
def searchHex : List Char → Option (List Char)
  | [] => none
  | c :: rest =>
    match hexMatchAt (c :: rest) with
    | some m => some m
    | none => searchHex rest

/-- A maximal nonempty digit run `\\d+` at the start of the text, and the
remainder. -/
def splitNum (cs : List Char) : Option (List Char × List Char) :=
  let d := cs.takeWhile Char.isDigit
  if d.isEmpty then none else some (d, cs.dropWhile Char.isDigit)

/-- A literal `,` at the start of the text, and the remainder. -/
def expectComma : List Char → Option (List Char)
  | [] => none
  | c :: rest => if c = ',' then some rest else none

/-- Attempt of `COLOR_CMYK_PATTERN = (\\d+,\\d+,\\d+,\\d+)` at the start of the
text.  Each `\\d+` is a maximal digit run (the regex engine cannot give
digits back, since a digit can never match the following `,`); returns the
four runs. -/
def cmykMatchAt (cs : List Char) : Option (List Char × List Char × List Char × List Char) := do
  let (d1, r1) ← splitNum cs
  let cs2 ← expectComma r1
  let (d2, r2) ← splitNum cs2
  let cs3 ← expectComma r2
  let (d3, r3) ← splitNum cs3
  let cs4 ← expectComma r3
  let (d4, _) ← splitNum cs4
  pure (d1, d2, d3, d4)

/-- `COLOR_CMYK_PATTERN.search`: try every start position from the left. -/
def searchCmyk : List Char → Option (List Char × List Char × List Char × List Char)
  | [] => none
  | c :: rest =>
    match cmykMatchAt (c :: rest) with
    | some m => some m
    | none => searchCmyk rest

/-- Python `int(s)` on a nonempty decimal digit string. -/
def digitsToNat (cs : List Char) : ℕ :=
  cs.foldl (fun n c => 10 * n + (c.toNat - 48)) 0

/-- Value of one hex digit, as in Python `int(s, 16)` after `.lower()`. -/
def hexDigitVal (c : Char) : ℕ :=
  if c.isDigit then c.toNat - 48
  else if 'a' ≤ c && c ≤ 'f' then c.toNat - 87
  else c.toNat - 55

/-- The value `reportlab.HexColor('0x' + hex)` stores: the hex string read
as a base-16 integer. -/
def hexToNat (cs : List Char) : ℕ :=
  cs.foldl (fun n c => 16 * n + hexDigitVal c) 0

/-- `parse_color(value)` from `flashcards/__main__.py`: search the hex
pattern first, then the CMYK pattern, else raise
`ValueError(f"The ... is not a valid color.")` (modelled as `.error` carrying
the offending value). -/
def parse_color (value : String) : Except String Color :=
  match searchHex value.data with
  | some hex => .ok (.HexColor (hexToNat hex))
  | none =>
    match searchCmyk value.data with
    | some (c, m, y, k) =>
      .ok (.PCMYKColor (digitsToNat c) (digitsToNat m) (digitsToNat y) (digitsToNat k))
    | none => .error value

/-- The text contains a match of `COLOR_HEXA_PATTERN` somewhere: a `#`
followed immediately by six (or three) characters of `[A-Fa-f0-9]`. -/
def MatchesHexPattern (cs : List Char) : Prop :=
  ∃ pre hex post, cs = pre ++ '#' :: (hex ++ post) ∧
    (hex.length = 6 ∨ hex.length = 3) ∧ hex.all isHexDigitChar = true

/-- The text contains a match of `COLOR_CMYK_PATTERN` somewhere: four
nonempty digit runs separated by commas. -/
def MatchesCmykPattern (cs : List Char) : Prop :=
  ∃ pre d1 d2 d3 d4 post,
    cs = pre ++ d1 ++ ',' :: (d2 ++ ',' :: (d3 ++ ',' :: (d4 ++ post))) ∧
    d1 ≠ [] ∧ d2 ≠ [] ∧ d3 ≠ [] ∧ d4 ≠ [] ∧
    d1.all Char.isDigit = true ∧ d2.all Char.isDigit = true ∧
    d3.all Char.isDigit = true ∧ d4.all Char.isDigit = true

/-- A config reachable from the CLI (`-mr 0.5 -fs 100 -pw 36 -ph 36`, the
`mm` scale folded in as `page_width = 100`) on which the claimed strict
decrease of the reduced font size fails. -/
def lowRatioConfig : Config where
  font_size := 100
  page_width := 100
  page_height := 100
  max_allowed_text_width_ratio := 1 / 2
  allow_repeated := false
  disable_reduce_to_fit := false
  ascent := 718
  descent := -207

/-- A dot-mode config with font size 10 on a 100 x 100 page, for a face
with ascent 800 and descent 0 (any registered font face supplies these
metrics). -/
def dotConfig : Config where
  font_size := 10
  page_width := 100
  page_height := 100
  max_allowed_text_width_ratio := 19 / 20
  allow_repeated := false
  disable_reduce_to_fit := false
  ascent := 800
  descent := 0

/-- A `randint` behaviour that always returns the lower bound of the
requested range (a legal behaviour of `random.randint`). -/
def randLo : ℤ → ℤ → ℕ → ℤ := fun lo _ _ => lo

/-- The invariant the sampler maintains on its accepted dots: all inside
the safe margin, pairwise squared distances at least `45 ^ 2`. -/
def DotsOk (config : Config) (dots : List (ℚ × ℚ)) : Prop :=
  (∀ p ∈ dots,
    config.font_size * (16 / 5) ≤ p.1 ∧ config.font_size * (16 / 5) ≤ p.2 ∧
    config.font_size * (16 / 5) ≤ config.page_width - p.1 ∧
    config.font_size * (16 / 5) ≤ config.page_height - p.2) ∧
  dots.Pairwise (fun a b => (45 : ℚ) ^ 2 ≤ distSq a b)

/-- `charListLe` agrees with the lexicographic order on character lists. -/
theorem charListLe_iff : ∀ as bs : List Char,
    charListLe as bs = true ↔ ¬ List.Lex (· < ·) bs as
  | [], bs => by
    simp only [charListLe]
    exact iff_of_true trivial fun h => by cases h
  | a :: as, [] => by
    simp only [charListLe, Bool.false_eq_true, false_iff, not_not]
    exact List.Lex.nil
  | a :: as, b :: bs => by
    simp only [charListLe]
    by_cases hab : a < b
    · simp only [if_pos hab, true_iff]
      intro h
      cases h with
      | rel h2 => exact absurd h2 (asymm hab)
      | cons h3 => exact lt_irrefl _ hab
    · by_cases hba : b < a
      · simp only [if_neg hab, if_pos hba, Bool.false_eq_true, false_iff, not_not]
        exact List.Lex.rel hba
      · have heq : a = b := le_antisymm (not_lt.mp hba) (not_lt.mp hab)
        subst heq
        rw [if_neg hab, if_neg hba, charListLe_iff as bs]
        constructor
        · intro h hlt
          cases hlt with
          | rel h2 => exact lt_irrefl _ h2
          | cons h3 => exact h h3
        · exact fun h hlt => h (List.Lex.cons hlt)

/-- `pyStrLe` agrees with the library order on `String`. -/
theorem pyStrLe_iff (a b : String) : pyStrLe a b = true ↔ a ≤ b := by
  rw [pyStrLe, charListLe_iff, String.le_iff_toList_le]
  exact @not_lt (List Char) _ b.toList a.toList

instance : IsTotal String (fun a b => pyStrLe a b = true) :=
  ⟨fun a b => by
    rw [pyStrLe_iff, pyStrLe_iff]
    exact le_total a b⟩

instance : IsTrans String (fun a b => pyStrLe a b = true) :=
  ⟨fun a b c h1 h2 => by
    rw [pyStrLe_iff] at h1 h2 ⊢
    exact le_trans h1 h2⟩

instance : IsTotal (String × List String) (fun a b => pyStrLe a.1 b.1 = true) :=
  ⟨fun a b => by
    rw [pyStrLe_iff, pyStrLe_iff]
    exact le_total a.1 b.1⟩

instance : IsTrans (String × List String) (fun a b => pyStrLe a.1 b.1 = true) :=
  ⟨fun a b c h1 h2 => by
    rw [pyStrLe_iff] at h1 h2 ⊢
    exact le_trans h1 h2⟩

section ExtractLemmas

/-- `pySorted` output is sorted for the library order on `String`. -/
theorem pySorted_sorted (l : List String) : (pySorted l).Sorted (· ≤ ·) :=
  (List.sorted_insertionSort _ l).imp fun h => (pyStrLe_iff _ _).mp h

/-- `pySorted` output is a permutation of its input. -/
theorem pySorted_perm (l : List String) : (pySorted l).Perm l :=
  List.perm_insertionSort _ l

/-- Membership in the valid-word list of an `allow_repeated=False` call. -/
theorem mem_extract_false_valid (words : List String) (seen : Finset (Option String))
    (w : String) :
    w ∈ (extract_valid_words words seen false).1 ↔ w ∈ words ∧ some w ∉ seen := by
  simp only [extract_valid_words, Bool.false_eq_true, if_false]
  rw [(pySorted_perm _).mem_iff]
  simp [List.mem_filter, List.mem_dedup]

/-- The valid-word list of an `allow_repeated=False` call is sorted. -/
theorem extract_false_sorted (words : List String) (seen : Finset (Option String)) :
    ((extract_valid_words words seen false).1).Sorted (· ≤ ·) := by
  simp only [extract_valid_words, Bool.false_eq_true, if_false]
  exact pySorted_sorted _

/-- The valid-word list of an `allow_repeated=False` call has no duplicates. -/
theorem extract_false_nodup (words : List String) (seen : Finset (Option String)) :
    ((extract_valid_words words seen false).1).Nodup := by
  simp only [extract_valid_words, Bool.false_eq_true, if_false]
  exact (pySorted_perm _).nodup_iff.mpr (words.nodup_dedup.filter _)

/-- The report of an `allow_repeated=False` call holds exactly the words of
the group that are repeated in the group or already in the seen-set. -/
theorem extract_false_report (words : List String) (seen : Finset (Option String)) :
    ∃ rep, (extract_valid_words words seen false).2 = some rep ∧
      ∀ w, w ∈ rep ↔ w ∈ words ∧ (1 < words.count w ∨ some w ∈ seen) := by
  refine ⟨_, rfl, fun w => ?_⟩
  simp only [extract_valid_words, Bool.false_eq_true, if_false, Finset.mem_union,
    Finset.mem_filter, List.mem_toFinset]
  tauto

end ExtractLemmas

/-- C1 (counterexample): on the word list `["a", "a"]` with the program's
initial seen-set and `allow_repeated=False`, the word `"a"` is repeated
within the group yet appears in the emitted (first) component, contradicting
the claim that a word repeated within the group never appears there. -/
theorem extract_valid_words_repeated_word_emitted :
    1 < (["a", "a"] : List String).count "a" ∧
      "a" ∈ (extract_valid_words ["a", "a"] initial_seen false).1 ∧
      (extract_valid_words ["a", "a"] initial_seen false).2 = some {"a"} := by
  refine ⟨by decide, by decide, by decide⟩

/-- C1 (amended): for `allow_repeated=False`, the first component of
`extract_valid_words` is the sorted duplicate-free list of exactly the words
of the group that are not in the global seen-set (a word repeated within the
group but not previously seen is kept, once); the second component reports
exactly the words repeated within the group or previously seen.  In
particular a previously seen word never appears in the first component. -/
theorem extract_valid_words_dedup_characterization (words : List String)
    (seen : Finset (Option String)) :
    ((extract_valid_words words seen false).1).Sorted (· ≤ ·) ∧
    ((extract_valid_words words seen false).1).Nodup ∧
    (∀ w, w ∈ (extract_valid_words words seen false).1 ↔ w ∈ words ∧ some w ∉ seen) ∧
    (∃ rep, (extract_valid_words words seen false).2 = some rep ∧
      ∀ w, w ∈ rep ↔ w ∈ words ∧ (1 < words.count w ∨ some w ∈ seen)) :=
  ⟨extract_false_sorted words seen, extract_false_nodup words seen,
    mem_extract_false_valid words seen, extract_false_report words seen⟩

/-- C1 (witness): instantiation of the amended characterization on the word
list `["b", "a", "b"]` with the program's initial seen-set. -/
theorem extract_valid_words_dedup_characterization_witness :
    "a" ∈ (extract_valid_words ["b", "a", "b"] initial_seen false).1 ↔
      "a" ∈ (["b", "a", "b"] : List String) ∧ some "a" ∉ initial_seen :=
  (extract_valid_words_dedup_characterization ["b", "a", "b"] initial_seen).2.2.1 "a"

/-- C6: for `allow_repeated=True`, `extract_valid_words` returns the input
list sorted — a permutation of the input, duplicates included, no word
removed whatever the seen-set — and no ignored report. -/
theorem extract_valid_words_allow_repeated_sorted_perm (words : List String)
    (seen : Finset (Option String)) :
    (extract_valid_words words seen true).2 = none ∧
    ((extract_valid_words words seen true).1).Perm words ∧
    ((extract_valid_words words seen true).1).Sorted (· ≤ ·) := by
  refine ⟨rfl, ?_, ?_⟩
  · simpa [extract_valid_words] using pySorted_perm words
  · simpa [extract_valid_words] using pySorted_sorted words

/-- C6 (witness): instantiation on `["b", "a", "b"]` with the program's
initial seen-set. -/
theorem extract_valid_words_allow_repeated_sorted_perm_witness :
    (extract_valid_words ["b", "a", "b"] initial_seen true).2 = none ∧
    ((extract_valid_words ["b", "a", "b"] initial_seen true).1).Perm ["b", "a", "b"] ∧
    ((extract_valid_words ["b", "a", "b"] initial_seen true).1).Sorted (· ≤ ·) :=
  extract_valid_words_allow_repeated_sorted_perm ["b", "a", "b"] initial_seen

/-- C3 (counterexample): with max width ratio 0.5, a word of measured width
60 on a page of width 100 exceeds the threshold (0.6 > 0.5), reduction is
enabled, and the recomputed font size `100 * (100/60 - 0.10) = 470/3` is
*larger* than the requested size 100, contradicting the claimed strict
decrease. -/
theorem fit_font_size_not_strictly_smaller :
    lowRatioConfig.max_allowed_text_width_ratio < 60 / lowRatioConfig.page_width ∧
    lowRatioConfig.disable_reduce_to_fit = false ∧
    fit_font_size lowRatioConfig 60 = some (470 / 3) ∧
    ¬ (470 / 3 : ℚ) < lowRatioConfig.font_size := by
  refine ⟨by norm_num [lowRatioConfig], rfl, ?_, by norm_num [lowRatioConfig]⟩
  rw [fit_font_size, if_pos (by norm_num [lowRatioConfig]), if_neg (by simp [lowRatioConfig])]
  rw [reduce_font_size_to_fit]
  norm_num [lowRatioConfig]

/-- C3 (amended): for any positive font size and page width, and any
max-width ratio of at least 10/11 (the default 0.95 qualifies): a word whose
measured width over the page width is at most the ratio keeps the requested
font size; one that exceeds it is skipped when `disable_reduce_to_fit` is
set (dropped from `generate`'s output while the remaining words are still
processed); otherwise its font size becomes exactly
`font_size * (page_width / width - 0.10)`, which is strictly smaller than
the requested size. -/
theorem fit_font_size_cases (config : Config) (w : ℚ)
    (hfs : 0 < config.font_size) (hpw : 0 < config.page_width)
    (hr : 10 / 11 ≤ config.max_allowed_text_width_ratio) :
    (w / config.page_width ≤ config.max_allowed_text_width_ratio →
      fit_font_size config w = some config.font_size) ∧
    (config.max_allowed_text_width_ratio < w / config.page_width →
      config.disable_reduce_to_fit = true →
      fit_font_size config w = none ∧
      ∀ widthFn (word : String) (ws : List String),
        widthFn (pyStrip word) = w →
        generate widthFn config (word :: ws) = generate widthFn config ws) ∧
    (config.max_allowed_text_width_ratio < w / config.page_width →
      config.disable_reduce_to_fit = false →
      fit_font_size config w
          = some (config.font_size * (config.page_width / w - 1 / 10)) ∧
      config.font_size * (config.page_width / w - 1 / 10) < config.font_size) := by
  refine ⟨fun hle => ?_, fun hgt hd => ⟨?_, ?_⟩, fun hgt hd => ⟨?_, ?_⟩⟩
  · rw [fit_font_size, if_neg (not_lt.mpr hle)]
  · rw [fit_font_size, if_pos hgt, if_pos hd]
  · intro widthFn word ws hw
    rw [generate, generate, List.filterMap_cons]
    rw [hw, fit_font_size, if_pos hgt, if_pos hd]
    rfl
  · rw [fit_font_size, if_pos hgt, if_neg (by rw [hd]; exact Bool.false_ne_true),
      reduce_font_size_to_fit]
  · have hw : 0 < w := by
      by_contra hw0
      push_neg at hw0
      have hle : w / config.page_width ≤ 0 := div_nonpos_of_nonpos_of_nonneg hw0 hpw.le
      have habs : (10 : ℚ) / 11 ≤ 0 := hr.trans (hgt.le.trans hle)
      norm_num at habs
    have h1 : (10 : ℚ) / 11 < w / config.page_width := lt_of_le_of_lt hr hgt
    rw [div_lt_div_iff₀ (by norm_num : (0:ℚ) < 11) hpw] at h1
    have h2 : config.page_width / w < 11 / 10 := by
      rw [div_lt_div_iff₀ hw (by norm_num : (0:ℚ) < 10)]
      linarith
    have h3 : config.page_width / w - 1 / 10 < 1 := by linarith
    have h4 : config.font_size * (config.page_width / w - 1 / 10) <
        config.font_size * 1 := mul_lt_mul_of_pos_left h3 hfs
    rwa [mul_one] at h4

/-- C3 (witness): the default config satisfies the hypotheses (font size
250 > 0, positive page width, ratio 0.95 at least 10/11), and a word of
measured width 0 keeps the requested font size 250. -/
theorem fit_font_size_cases_witness :
    fit_font_size defaultConfig 0 = some defaultConfig.font_size :=
  (fit_font_size_cases defaultConfig 0 (by norm_num [defaultConfig])
      (by norm_num [defaultConfig, mm]) (by norm_num [defaultConfig])).1
    (by norm_num [defaultConfig, mm])

section SamplerInvariant

/-- A point is not `outside_page` exactly when it keeps the safe margin
`font_size * 3.2` to all four page edges. -/
theorem outside_page_eq_false (p : ℚ × ℚ) (config : Config) :
    outside_page p config = false ↔
      config.font_size * (16 / 5) ≤ p.1 ∧ config.font_size * (16 / 5) ≤ p.2 ∧
      config.font_size * (16 / 5) ≤ config.page_width - p.1 ∧
      config.font_size * (16 / 5) ≤ config.page_height - p.2 := by
  simp only [outside_page, Bool.or_eq_false_iff, decide_eq_false_iff_not, not_lt]
  tauto

/-- A candidate passes the overlap check exactly when its squared distance
to every already placed dot is at least `45 ^ 2`. -/
theorem overlaps_any_eq_false (p : ℚ × ℚ) (dots : List (ℚ × ℚ)) :
    overlaps_any p dots = false ↔ ∀ d ∈ dots, (45 : ℚ) ^ 2 ≤ distSq d p := by
  simp [overlaps_any, overlaps, not_lt]

/-- One loop iteration preserves the invariant: a dot is only appended
after passing the margin and overlap checks. -/
theorem sampler_step_dotsOk (config : Config) (rand : ℤ → ℤ → ℕ → ℤ)
    (center : ℚ × ℚ) (s : SampState) (h : DotsOk config s.dots) :
    DotsOk config (sampler_step config rand center s).dots := by
  rw [sampler_step]
  set a := sampler_attempt config rand center s with ha
  by_cases hacc : a.accepted
  · rw [if_pos hacc]
    have hchecks : outside_page a.position config = false ∧
        overlaps_any a.position s.dots = false := by
      have : (!(outside_page a.position config ||
          overlaps_any a.position s.dots)) = true := by
        rw [ha] at hacc ⊢
        exact hacc
      rw [Bool.not_eq_true'] at this
      exact Bool.or_eq_false_iff.mp this
    constructor
    · intro p hp
      rcases List.mem_append.mp hp with hp | hp
      · exact h.1 p hp
      · rw [List.mem_singleton] at hp
        subst hp
        exact (outside_page_eq_false _ _).mp hchecks.1
    · rw [List.pairwise_append]
      refine ⟨h.2, List.pairwise_singleton _ _, ?_⟩
      intro d hd p hp
      rw [List.mem_singleton] at hp
      subst hp
      exact (overlaps_any_eq_false _ _).mp hchecks.2 d hd
  · rw [if_neg hacc]
    exact h

/-- The whole loop preserves the invariant. -/
theorem sampler_run_dotsOk (config : Config) (rand : ℤ → ℤ → ℕ → ℤ)
    (center : ℚ × ℚ) (wanted : ℕ) :
    ∀ (fuel : ℕ) (s : SampState), DotsOk config s.dots →
      DotsOk config (sampler_run config rand center wanted fuel s).dots
  | 0, _, h => h
  | fuel + 1, s, h => by
    rw [sampler_run]
    by_cases hlen : s.dots.length < wanted
    · rw [if_pos hlen]
      exact sampler_run_dotsOk config rand center wanted fuel _
        (sampler_step_dotsOk config rand center s h)
    · rw [if_neg hlen]
      exact h

end SamplerInvariant

/-- C2: any dot set the `generate_math` sampler accepts (for any target
count, any number of loop iterations and any behaviour of the random
source) keeps every dot at least `font_size * 3.2` away from all four page
edges, and every pair of distinct accepted dots at Euclidean distance at
least 45, the default minimum distance. -/
theorem generate_math_dots_invariant (config : Config) (rand : ℤ → ℤ → ℕ → ℤ)
    (wanted fuel : ℕ) :
    (∀ p ∈ generate_math_dots config rand wanted fuel,
      config.font_size * (16 / 5) ≤ p.1 ∧ config.font_size * (16 / 5) ≤ p.2 ∧
      config.font_size * (16 / 5) ≤ config.page_width - p.1 ∧
      config.font_size * (16 / 5) ≤ config.page_height - p.2) ∧
    (generate_math_dots config rand wanted fuel).Pairwise
      (fun a b => (45 : ℝ) ≤ Real.sqrt ((distSq a b : ℚ) : ℝ)) := by
  have h : DotsOk config (generate_math_dots config rand wanted fuel) :=
    sampler_run_dotsOk config rand _ wanted fuel ⟨[], 5, 0⟩
      ⟨fun p hp => absurd hp (List.not_mem_nil p), List.Pairwise.nil⟩
  refine ⟨h.1, h.2.imp ?_⟩
  intro a b hab
  rw [Real.le_sqrt' (by norm_num : (0:ℝ) < 45)]
  calc ((45 : ℝ)) ^ 2 = (((45 : ℚ) ^ 2 : ℚ) : ℝ) := by push_cast; ring
    _ ≤ ((distSq a b : ℚ) : ℝ) := by exact_mod_cast hab

section SamplerTrace

/-- Field values of one sampler attempt: the attempt number is the
incremented one, and the candidate is the center shifted by the two
`randint` draws whose bounds come from the truncated, capped radius. -/
theorem sampler_attempt_spec (config : Config) (rand : ℤ → ℤ → ℕ → ℤ)
    (center : ℚ × ℚ) (s : SampState) :
    (sampler_attempt config rand center s).attempt_number = s.attempt_number + 1 ∧
    (sampler_attempt config rand center s).position =
      (center.1 +
        ((rand (-(min (pyInt (((s.attempt_number + 1 : ℕ) : ℚ) * config.font_size * (3 / 10)))
            ⌊config.page_width / 2⌋))
          (min (pyInt (((s.attempt_number + 1 : ℕ) : ℚ) * config.font_size * (3 / 10)))
            ⌊config.page_width / 2⌋) s.t : ℤ) : ℚ),
       center.2 +
        ((rand (-(min (pyInt (((s.attempt_number + 1 : ℕ) : ℚ) * config.font_size * (3 / 10)))
            ⌊config.page_height / 2⌋))
          (min (pyInt (((s.attempt_number + 1 : ℕ) : ℚ) * config.font_size * (3 / 10)))
            ⌊config.page_height / 2⌋) (s.t + 1) : ℤ) : ℚ)) :=
  ⟨rfl, rfl⟩

/-- The `attempt_number` of the state after one iteration. -/
theorem sampler_step_attempt_number (config : Config) (rand : ℤ → ℤ → ℕ → ℤ)
    (center : ℚ × ℚ) (s : SampState) :
    (sampler_step config rand center s).attempt_number =
      if (sampler_attempt config rand center s).accepted then 5
      else (sampler_attempt config rand center s).attempt_number := by
  rw [sampler_step]
  by_cases h : (sampler_attempt config rand center s).accepted
  · rw [if_pos h, if_pos h]
  · rw [if_neg h, if_neg h]

/-- The first recorded attempt of a nonempty trace is the attempt made from
the starting state. -/
theorem sampler_trace_getElem_zero (config : Config) (rand : ℤ → ℤ → ℕ → ℤ)
    (center : ℚ × ℚ) (wanted : ℕ) :
    ∀ (fuel : ℕ) (s : SampState) (a : Attempt),
      (sampler_trace config rand center wanted fuel s)[0]? = some a →
      a = sampler_attempt config rand center s
  | 0, s, a, h => by simp [sampler_trace] at h
  | fuel + 1, s, a, h => by
    simp only [sampler_trace] at h
    by_cases hlt : s.dots.length < wanted
    · rw [if_pos hlt] at h
      simp only [List.getElem?_cons_zero, Option.some.injEq] at h
      exact h.symm
    · rw [if_neg hlt] at h
      simp at h

/-- Consecutive attempts of a trace: the attempt number is reset to 5 and
re-incremented (so 6) right after an acceptance, and incremented once more
after a rejection. -/
theorem sampler_trace_chain (config : Config) (rand : ℤ → ℤ → ℕ → ℤ)
    (center : ℚ × ℚ) (wanted : ℕ) :
    ∀ (fuel : ℕ) (s : SampState) (k : ℕ) (a b : Attempt),
      (sampler_trace config rand center wanted fuel s)[k]? = some a →
      (sampler_trace config rand center wanted fuel s)[k + 1]? = some b →
      b.attempt_number = if a.accepted then 5 + 1 else a.attempt_number + 1
  | 0, s, k, a, b, ha, hb => by simp [sampler_trace] at ha
  | fuel + 1, s, k, a, b, ha, hb => by
    simp only [sampler_trace] at ha hb
    by_cases hlt : s.dots.length < wanted
    · rw [if_pos hlt] at ha hb
      match k with
      | 0 =>
        simp only [List.getElem?_cons_zero, Option.some.injEq] at ha
        simp only [List.getElem?_cons_succ] at hb
        have hb0 := sampler_trace_getElem_zero config rand center wanted fuel
          (sampler_step config rand center s) b hb
        subst ha
        rw [hb0, (sampler_attempt_spec config rand center _).1,
          sampler_step_attempt_number]
        by_cases hacc : (sampler_attempt config rand center s).accepted
        · rw [if_pos hacc, if_pos hacc]
        · rw [if_neg hacc, if_neg hacc]
      | k' + 1 =>
        simp only [List.getElem?_cons_succ] at ha hb
        exact sampler_trace_chain config rand center wanted fuel
          (sampler_step config rand center s) k' a b ha hb
    · rw [if_neg hlt] at ha
      simp at ha

/-- Every recorded candidate lies within the truncated, capped radius of
the reference position, provided `randint` honours its bounds and the
config is nonnegative. -/
theorem sampler_trace_bounds (config : Config) (rand : ℤ → ℤ → ℕ → ℤ)
    (center : ℚ × ℚ) (wanted : ℕ)
    (hrand : ∀ lo hi t, lo ≤ hi → lo ≤ rand lo hi t ∧ rand lo hi t ≤ hi)
    (hfs : 0 ≤ config.font_size) (hpw : 0 ≤ config.page_width)
    (hph : 0 ≤ config.page_height) :
    ∀ (fuel : ℕ) (s : SampState) (k : ℕ) (a : Attempt),
      (sampler_trace config rand center wanted fuel s)[k]? = some a →
      |a.position.1 - center.1| ≤
        ((min (pyInt ((a.attempt_number : ℚ) * config.font_size * (3 / 10)))
          ⌊config.page_width / 2⌋ : ℤ) : ℚ) ∧
      |a.position.2 - center.2| ≤
        ((min (pyInt ((a.attempt_number : ℚ) * config.font_size * (3 / 10)))
          ⌊config.page_height / 2⌋ : ℤ) : ℚ)
  | 0, s, k, a, ha => by simp [sampler_trace] at ha
  | fuel + 1, s, k, a, ha => by
    simp only [sampler_trace] at ha
    by_cases hlt : s.dots.length < wanted
    · rw [if_pos hlt] at ha
      match k with
      | 0 =>
        simp only [List.getElem?_cons_zero, Option.some.injEq] at ha
        subst ha
        obtain ⟨han, hpos⟩ := sampler_attempt_spec config rand center s
        rw [han, hpos]
        have hreducer : (0 : ℤ) ≤
            pyInt (((s.attempt_number + 1 : ℕ) : ℚ) * config.font_size * (3 / 10)) := by
          rw [pyInt, if_pos (by positivity)]
          exact Int.floor_nonneg.mpr (by positivity)
        constructor
        · have hxmax : (0 : ℤ) ≤
              min (pyInt (((s.attempt_number + 1 : ℕ) : ℚ) * config.font_size * (3 / 10)))
                ⌊config.page_width / 2⌋ :=
            le_min hreducer (Int.floor_nonneg.mpr (by positivity))
          obtain ⟨hlo, hhi⟩ := hrand _ _ s.t (neg_le_self hxmax)
          have hsimp : center.1 +
              ((rand (-(min (pyInt (((s.attempt_number + 1 : ℕ) : ℚ) *
                  config.font_size * (3 / 10))) ⌊config.page_width / 2⌋))
                (min (pyInt (((s.attempt_number + 1 : ℕ) : ℚ) *
                  config.font_size * (3 / 10))) ⌊config.page_width / 2⌋) s.t : ℤ) : ℚ) -
              center.1 =
              ((rand (-(min (pyInt (((s.attempt_number + 1 : ℕ) : ℚ) *
                  config.font_size * (3 / 10))) ⌊config.page_width / 2⌋))
                (min (pyInt (((s.attempt_number + 1 : ℕ) : ℚ) *
                  config.font_size * (3 / 10))) ⌊config.page_width / 2⌋) s.t : ℤ) : ℚ) := by
            ring
          rw [hsimp, ← Int.cast_abs, Int.cast_le]
          exact abs_le.mpr ⟨hlo, hhi⟩
        · have hymax : (0 : ℤ) ≤
              min (pyInt (((s.attempt_number + 1 : ℕ) : ℚ) * config.font_size * (3 / 10)))
                ⌊config.page_height / 2⌋ :=
            le_min hreducer (Int.floor_nonneg.mpr (by positivity))
          obtain ⟨hlo, hhi⟩ := hrand _ _ (s.t + 1) (neg_le_self hymax)
          have hsimp : center.2 +
              ((rand (-(min (pyInt (((s.attempt_number + 1 : ℕ) : ℚ) *
                  config.font_size * (3 / 10))) ⌊config.page_height / 2⌋))
                (min (pyInt (((s.attempt_number + 1 : ℕ) : ℚ) *
                  config.font_size * (3 / 10))) ⌊config.page_height / 2⌋) (s.t + 1) : ℤ) : ℚ) -
              center.2 =
              ((rand (-(min (pyInt (((s.attempt_number + 1 : ℕ) : ℚ) *
                  config.font_size * (3 / 10))) ⌊config.page_height / 2⌋))
                (min (pyInt (((s.attempt_number + 1 : ℕ) : ℚ) *
                  config.font_size * (3 / 10))) ⌊config.page_height / 2⌋) (s.t + 1) : ℤ) : ℚ) := by
            ring
          rw [hsimp, ← Int.cast_abs, Int.cast_le]
          exact abs_le.mpr ⟨hlo, hhi⟩
      | k' + 1 =>
        simp only [List.getElem?_cons_succ] at ha
        exact sampler_trace_bounds config rand center wanted hrand hfs hpw hph fuel
          (sampler_step config rand center s) k' a ha
    · rw [if_neg hlt] at ha
      simp at ha

end SamplerTrace

/-- C4 (counterexample): with font size 10, ascent 800 and descent 0 on a
100 x 100 page, the loop's reference point is `(50, 46)` — the vertical
middle lowered by half the font height — not the page center `(50, 50)`.
When both `randint` draws return the lower bound, the first candidate drawn
is `(32, 28)`: its y coordinate lies strictly below
`page_height/2 - radius = 50 - 18 = 32`, the lowest value the claim (radius
`attempt_number * font_size * 0.3` around the page center, capped at half
the page height) allows, so the claim is false as stated. -/
theorem sampler_candidate_not_page_centered :
    ((sampler_trace dotConfig randLo
        (get_word_centered_position dotConfig dotConfig.font_size) 1 1
        ⟨[], 5, 0⟩).map Attempt.position) = [(32, 28)] ∧
    (28 : ℚ) < dotConfig.page_height / 2 -
      min ((5 + 1 : ℚ) * dotConfig.font_size * (3 / 10))
        (dotConfig.page_height / 2) := by
  constructor
  · have h1 : (sampler_trace dotConfig randLo
        (get_word_centered_position dotConfig dotConfig.font_size) 1 1 ⟨[], 5, 0⟩) =
        [sampler_attempt dotConfig randLo
          (get_word_centered_position dotConfig dotConfig.font_size) ⟨[], 5, 0⟩] := by
      simp [sampler_trace]
    rw [h1, List.map_cons, List.map_nil]
    have hc : get_word_centered_position dotConfig dotConfig.font_size =
        ((50 : ℚ), (46 : ℚ)) := by
      rw [get_word_centered_position]
      norm_num [dotConfig]
    have hmin : min (pyInt ((((5 : ℕ) + 1 : ℕ) : ℚ) * dotConfig.font_size * (3 / 10)))
        ⌊dotConfig.page_width / 2⌋ = 18 := by
      have harg : ((((5 : ℕ) + 1 : ℕ) : ℚ) * dotConfig.font_size * (3 / 10)) = 18 := by
        norm_num [dotConfig]
      rw [harg, pyInt, if_pos (by norm_num)]
      have hfl : ⌊(18 : ℚ)⌋ = 18 := by
        norm_num
      have hpw2 : ⌊dotConfig.page_width / 2⌋ = 50 := by
        norm_num [dotConfig]
      rw [hfl, hpw2]
      norm_num
    have hminh : min (pyInt ((((5 : ℕ) + 1 : ℕ) : ℚ) * dotConfig.font_size * (3 / 10)))
        ⌊dotConfig.page_height / 2⌋ = 18 := by
      have harg : ((((5 : ℕ) + 1 : ℕ) : ℚ) * dotConfig.font_size * (3 / 10)) = 18 := by
        norm_num [dotConfig]
      rw [harg, pyInt, if_pos (by norm_num)]
      have hfl : ⌊(18 : ℚ)⌋ = 18 := by
        norm_num
      have hph2 : ⌊dotConfig.page_height / 2⌋ = 50 := by
        norm_num [dotConfig]
      rw [hfl, hph2]
      norm_num
    have hpos := (sampler_attempt_spec dotConfig randLo
      (get_word_centered_position dotConfig dotConfig.font_size) ⟨[], 5, 0⟩).2
    rw [hpos]
    rw [List.cons.injEq]
    refine ⟨?_, rfl⟩
    rw [hc]
    rw [show ((⟨[], 5, 0⟩ : SampState).attempt_number + 1 : ℕ) = ((5 : ℕ) + 1 : ℕ) from rfl,
      hmin, hminh]
    rw [randLo, randLo]
    norm_num
  · norm_num [dotConfig]

/-- C4 (amended): in the dot sampler's loop for one target count,
`attempt_number` starts at 5 and is incremented before every attempt (so
the first candidate is drawn with attempt number 6), and is reset to 5 by
an acceptance (so the attempt following an accepted one again uses 6, while
the attempt following a rejection uses the previous number plus one); the
per-axis search bound is the Python integer truncation
`int(attempt_number * font_size * 0.3)`, capped at the floored half page
width (x) and floored half page height (y); and each candidate, drawn by
`randint` within `[-bound, bound]` on each axis, is offset from the
word-centered reference position returned by `get_word_centered_position`
(the page center horizontally, but vertically lowered by half the computed
font height), not from the page center. -/
theorem sampler_trace_attempt_dynamics (config : Config) (rand : ℤ → ℤ → ℕ → ℤ)
    (wanted fuel : ℕ)
    (hrand : ∀ lo hi t, lo ≤ hi → lo ≤ rand lo hi t ∧ rand lo hi t ≤ hi)
    (hfs : 0 ≤ config.font_size) (hpw : 0 ≤ config.page_width)
    (hph : 0 ≤ config.page_height) :
    (∀ a : Attempt, (sampler_trace config rand
        (get_word_centered_position config config.font_size) wanted fuel
        ⟨[], 5, 0⟩)[0]? = some a → a.attempt_number = 5 + 1) ∧
    (∀ (k : ℕ) (a b : Attempt), (sampler_trace config rand
        (get_word_centered_position config config.font_size) wanted fuel
        ⟨[], 5, 0⟩)[k]? = some a →
      (sampler_trace config rand
        (get_word_centered_position config config.font_size) wanted fuel
        ⟨[], 5, 0⟩)[k + 1]? = some b →
      b.attempt_number = if a.accepted then 5 + 1 else a.attempt_number + 1) ∧
    (∀ (k : ℕ) (a : Attempt), (sampler_trace config rand
        (get_word_centered_position config config.font_size) wanted fuel
        ⟨[], 5, 0⟩)[k]? = some a →
      |a.position.1 - (get_word_centered_position config config.font_size).1| ≤
        ((min (pyInt ((a.attempt_number : ℚ) * config.font_size * (3 / 10)))
          ⌊config.page_width / 2⌋ : ℤ) : ℚ) ∧
      |a.position.2 - (get_word_centered_position config config.font_size).2| ≤
        ((min (pyInt ((a.attempt_number : ℚ) * config.font_size * (3 / 10)))
          ⌊config.page_height / 2⌋ : ℤ) : ℚ)) := by
  refine ⟨fun a ha => ?_, fun k a b ha hb => ?_, fun k a ha => ?_⟩
  · rw [sampler_trace_getElem_zero config rand _ wanted fuel _ a ha]
    exact (sampler_attempt_spec config rand _ _).1
  · exact sampler_trace_chain config rand _ wanted fuel _ k a b ha hb
  · exact sampler_trace_bounds config rand _ wanted hrand hfs hpw hph fuel _ k a ha

/-- C4 (witness): for the concrete dot config and the lower-bound `randint`
behaviour, the first attempt of the trace carries attempt number 6. -/
theorem sampler_trace_attempt_dynamics_witness :
    (sampler_attempt dotConfig randLo
      (get_word_centered_position dotConfig dotConfig.font_size)
      ⟨[], 5, 0⟩).attempt_number = 5 + 1 :=
  (sampler_trace_attempt_dynamics dotConfig randLo 1 1
      (fun lo hi t h => ⟨le_refl lo, h⟩)
      (by norm_num [dotConfig]) (by norm_num [dotConfig])
      (by norm_num [dotConfig])).1 _
    (by simp [sampler_trace])

section ColorLemmas

/-- A successful anchored hex match captures the six or three hex digits
right after a leading `#`. -/
theorem hexMatchAt_sound (cs m : List Char) (h : hexMatchAt cs = some m) :
    ∃ post, cs = '#' :: (m ++ post) ∧ (m.length = 6 ∨ m.length = 3) ∧
      m.all isHexDigitChar = true := by
  match cs with
  | [] => simp [hexMatchAt] at h
  | c :: rest =>
    simp only [hexMatchAt] at h
    split at h
    · rename_i hc
      subst hc
      split at h
      · rename_i h6
        simp only [Bool.and_eq_true, decide_eq_true_eq] at h6
        rw [Option.some.injEq] at h
        subst h
        exact ⟨rest.drop 6, by rw [List.take_append_drop], Or.inl h6.1, h6.2⟩
      · split at h
        · rename_i h3
          simp only [Bool.and_eq_true, decide_eq_true_eq] at h3
          rw [Option.some.injEq] at h
          subst h
          exact ⟨rest.drop 3, by rw [List.take_append_drop], Or.inr h3.1, h3.2⟩
        · exact absurd h (by simp)
    · exact absurd h (by simp)

/-- An anchored hex match succeeds on a `#` followed by six or three hex
digits. -/
theorem hexMatchAt_complete (hex post : List Char)
    (hlen : hex.length = 6 ∨ hex.length = 3) (hall : hex.all isHexDigitChar = true) :
    (hexMatchAt ('#' :: (hex ++ post))).isSome = true := by
  simp only [hexMatchAt, if_pos rfl]
  rcases hlen with h6 | h3
  · rw [List.take_left' h6]
    simp [h6, hall]
  · by_cases hc : (decide (((hex ++ post).take 6).length = 6) &&
        ((hex ++ post).take 6).all isHexDigitChar) = true
    · rw [if_pos hc]
      simp
    · rw [if_neg hc, List.take_left' h3]
      simp [h3, hall]

/-- `COLOR_HEXA_PATTERN.search` succeeds exactly on texts containing a hex
color match. -/
theorem searchHex_isSome_iff : ∀ cs : List Char,
    (searchHex cs).isSome = true ↔ MatchesHexPattern cs
  | [] => by
    simp only [searchHex, Option.isSome_none, Bool.false_eq_true, false_iff]
    rintro ⟨pre, hex, post, hcs, -, -⟩
    exact absurd hcs (by simp)
  | c :: rest => by
    simp only [searchHex]
    constructor
    · intro h
      cases hm : hexMatchAt (c :: rest) with
      | some m =>
        obtain ⟨post, hcs, hlen, hall⟩ := hexMatchAt_sound _ _ hm
        exact ⟨[], m, post, by simpa using hcs, hlen, hall⟩
      | none =>
        rw [hm] at h
        obtain ⟨pre, hex, post, hcs, hlen, hall⟩ :=
          (searchHex_isSome_iff rest).mp h
        exact ⟨c :: pre, hex, post, by simp [hcs], hlen, hall⟩
    · rintro ⟨pre, hex, post, hcs, hlen, hall⟩
      match pre, hcs with
      | [], hcs =>
        simp only [List.nil_append] at hcs
        rw [hcs]
        cases hm : hexMatchAt ('#' :: (hex ++ post)) with
        | some m => simp
        | none =>
          have := hexMatchAt_complete hex post hlen hall
          rw [hm] at this
          simp at this
      | c' :: pre', hcs =>
        simp only [List.cons_append, List.cons.injEq] at hcs
        obtain ⟨rfl, hcs⟩ := hcs
        cases hm : hexMatchAt (c :: rest) with
        | some m => simp
        | none =>
          exact (searchHex_isSome_iff rest).mpr ⟨pre', hex, post, hcs, hlen, hall⟩

/-- A successful `splitNum` returns the maximal leading digit run, which is
nonempty, and the rest. -/
theorem splitNum_eq_some (cs d r : List Char) (h : splitNum cs = some (d, r)) :
    d = cs.takeWhile Char.isDigit ∧ r = cs.dropWhile Char.isDigit ∧ d ≠ [] := by
  simp only [splitNum] at h
  split at h
  · exact absurd h (by simp)
  · rename_i hne
    rw [Option.some.injEq, Prod.mk.injEq] at h
    obtain ⟨h1, h2⟩ := h
    subst h1
    subst h2
    refine ⟨rfl, rfl, ?_⟩
    intro hnil
    rw [hnil] at hne
    exact hne rfl

/-- A maximal digit run before a comma is read off exactly. -/
theorem takeWhile_digit_run : ∀ (d : List Char), d.all Char.isDigit = true →
    ∀ r : List Char, ((d ++ ',' :: r).takeWhile Char.isDigit) = d ∧
      ((d ++ ',' :: r).dropWhile Char.isDigit) = ',' :: r
  | [], _, r => by
    constructor
    · simp only [List.nil_append]
      exact List.takeWhile_cons_of_neg (by decide)
    · simp only [List.nil_append]
      exact List.dropWhile_cons_of_neg (by decide)
  | c :: d', h, r => by
    simp only [List.all_cons, Bool.and_eq_true] at h
    obtain ⟨ih1, ih2⟩ := takeWhile_digit_run d' h.2 r
    constructor
    · simp only [List.cons_append, List.takeWhile_cons_of_pos h.1]
      rw [ih1]
    · simp only [List.cons_append, List.dropWhile_cons_of_pos h.1]
      exact ih2

/-- `splitNum` accepts a nonempty digit run followed by a comma. -/
theorem splitNum_run (d r : List Char) (hne : d ≠ [])
    (hall : d.all Char.isDigit = true) :
    splitNum (d ++ ',' :: r) = some (d, ',' :: r) := by
  obtain ⟨h1, h2⟩ := takeWhile_digit_run d hall r
  rw [splitNum]
  simp only [h1, h2]
  rw [if_neg (by simp [hne])]

/-- A successful `expectComma` means the text starts with a comma. -/
theorem expectComma_eq_some (r cs2 : List Char) (h : expectComma r = some cs2) :
    r = ',' :: cs2 := by
  match r with
  | [] => simp [expectComma] at h
  | c :: r' =>
    simp only [expectComma] at h
    split at h
    · rename_i hc
      rw [Option.some.injEq] at h
      rw [hc, h]
    · exact absurd h (by simp)

/-- A successful anchored CMYK match decomposes the text into four nonempty
digit runs separated by commas. -/
theorem cmykMatchAt_sound (cs : List Char) (d1 d2 d3 d4 : List Char)
    (h : cmykMatchAt cs = some (d1, d2, d3, d4)) :
    ∃ post, cs = d1 ++ ',' :: (d2 ++ ',' :: (d3 ++ ',' :: (d4 ++ post))) ∧
      d1 ≠ [] ∧ d2 ≠ [] ∧ d3 ≠ [] ∧ d4 ≠ [] ∧
      d1.all Char.isDigit = true ∧ d2.all Char.isDigit = true ∧
      d3.all Char.isDigit = true ∧ d4.all Char.isDigit = true := by
  simp only [cmykMatchAt, bind, Option.bind_eq_some] at h
  obtain ⟨⟨e1, r1⟩, hs1, h⟩ := h
  obtain ⟨cs2, hc1, h⟩ := h
  obtain ⟨⟨e2, r2⟩, hs2, h⟩ := h
  obtain ⟨cs3, hc2, h⟩ := h
  obtain ⟨⟨e3, r3⟩, hs3, h⟩ := h
  obtain ⟨cs4, hc3, h⟩ := h
  obtain ⟨⟨e4, r4⟩, hs4, h⟩ := h
  simp only [pure, Option.some.injEq, Prod.mk.injEq] at h
  obtain ⟨h1, h2, h3, h4⟩ := h
  subst h1
  subst h2
  subst h3
  subst h4
  obtain ⟨ht1, hd1, hn1⟩ := splitNum_eq_some _ _ _ hs1
  obtain ⟨ht2, hd2, hn2⟩ := splitNum_eq_some _ _ _ hs2
  obtain ⟨ht3, hd3, hn3⟩ := splitNum_eq_some _ _ _ hs3
  obtain ⟨ht4, hd4, hn4⟩ := splitNum_eq_some _ _ _ hs4
  have e1all : e1.all Char.isDigit = true := by rw [ht1]; exact List.all_takeWhile
  have e2all : e2.all Char.isDigit = true := by rw [ht2]; exact List.all_takeWhile
  have e3all : e3.all Char.isDigit = true := by rw [ht3]; exact List.all_takeWhile
  have e4all : e4.all Char.isDigit = true := by rw [ht4]; exact List.all_takeWhile
  refine ⟨r4, ?_, hn1, hn2, hn3, hn4, e1all, e2all, e3all, e4all⟩
  have hr1 : r1 = ',' :: cs2 := expectComma_eq_some _ _ hc1
  have hr2 : r2 = ',' :: cs3 := expectComma_eq_some _ _ hc2
  have hr3 : r3 = ',' :: cs4 := expectComma_eq_some _ _ hc3
  have hcs : cs = e1 ++ r1 := by
    rw [ht1, hd1, List.takeWhile_append_dropWhile]
  have hcs2 : cs2 = e2 ++ r2 := by
    rw [ht2, hd2, List.takeWhile_append_dropWhile]
  have hcs3 : cs3 = e3 ++ r3 := by
    rw [ht3, hd3, List.takeWhile_append_dropWhile]
  have hcs4 : cs4 = e4 ++ r4 := by
    rw [ht4, hd4, List.takeWhile_append_dropWhile]
  rw [hcs, hr1, hcs2, hr2, hcs3, hr3, hcs4]

/-- `expectComma` consumes a leading comma. -/
theorem expectComma_comma (r : List Char) : expectComma (',' :: r) = some r := by
  simp [expectComma]

/-- The anchored CMYK match succeeds on four nonempty digit runs separated
by commas. -/
theorem cmykMatchAt_complete (d1 d2 d3 d4 post : List Char)
    (hn1 : d1 ≠ []) (hn2 : d2 ≠ []) (hn3 : d3 ≠ []) (hn4 : d4 ≠ [])
    (ha1 : d1.all Char.isDigit = true) (ha2 : d2.all Char.isDigit = true)
    (ha3 : d3.all Char.isDigit = true) (ha4 : d4.all Char.isDigit = true) :
    (cmykMatchAt (d1 ++ ',' :: (d2 ++ ',' :: (d3 ++ ',' :: (d4 ++ post))))).isSome
      = true := by
  have hs1 := splitNum_run d1 (d2 ++ ',' :: (d3 ++ ',' :: (d4 ++ post))) hn1 ha1
  have hs2 := splitNum_run d2 (d3 ++ ',' :: (d4 ++ post)) hn2 ha2
  have hs3 := splitNum_run d3 (d4 ++ post) hn3 ha3
  have hs4 : (splitNum (d4 ++ post)).isSome = true := by
    match d4, hn4 with
    | c :: d4', _ =>
      simp only [List.all_cons, Bool.and_eq_true] at ha4
      simp only [splitNum, List.cons_append, List.takeWhile_cons_of_pos ha4.1]
      rw [if_neg (by simp)]
      simp
  obtain ⟨⟨e4, r4⟩, hp4⟩ := Option.isSome_iff_exists.mp hs4
  simp only [cmykMatchAt, bind, hs1, Option.some_bind, expectComma_comma,
    hs2, hs3, hp4]
  simp [pure]

/-- `COLOR_CMYK_PATTERN.search` succeeds exactly on texts containing a CMYK
quadruple match. -/
theorem searchCmyk_isSome_iff : ∀ cs : List Char,
    (searchCmyk cs).isSome = true ↔ MatchesCmykPattern cs
  | [] => by
    simp only [searchCmyk, Option.isSome_none, Bool.false_eq_true, false_iff]
    rintro ⟨pre, d1, d2, d3, d4, post, hcs, hn1, -⟩
    match pre, hcs with
    | [], hcs =>
      simp only [List.nil_append] at hcs
      match d1, hn1 with
      | c :: d1', _ => simp at hcs
    | c :: pre', hcs => simp at hcs
  | c :: rest => by
    simp only [searchCmyk]
    constructor
    · intro h
      cases hm : cmykMatchAt (c :: rest) with
      | some m =>
        obtain ⟨d1, d2, d3, d4⟩ := m
        obtain ⟨post, hcs, hn1, hn2, hn3, hn4, ha1, ha2, ha3, ha4⟩ :=
          cmykMatchAt_sound _ _ _ _ _ hm
        exact ⟨[], d1, d2, d3, d4, post, by simpa using hcs,
          hn1, hn2, hn3, hn4, ha1, ha2, ha3, ha4⟩
      | none =>
        rw [hm] at h
        obtain ⟨pre, d1, d2, d3, d4, post, hcs, hrest⟩ :=
          (searchCmyk_isSome_iff rest).mp h
        exact ⟨c :: pre, d1, d2, d3, d4, post, by simp [hcs], hrest⟩
    · rintro ⟨pre, d1, d2, d3, d4, post, hcs, hn1, hn2, hn3, hn4, ha1, ha2, ha3, ha4⟩
      match pre, hcs with
      | [], hcs =>
        simp only [List.nil_append] at hcs
        rw [hcs]
        cases hm : cmykMatchAt (d1 ++ ',' :: (d2 ++ ',' :: (d3 ++ ',' :: (d4 ++ post)))) with
        | some m => simp
        | none =>
          have := cmykMatchAt_complete d1 d2 d3 d4 post hn1 hn2 hn3 hn4 ha1 ha2 ha3 ha4
          rw [hm] at this
          simp at this
      | c' :: pre', hcs =>
        simp only [List.cons_append, List.cons.injEq] at hcs
        obtain ⟨rfl, hcs⟩ := hcs
        cases hm : cmykMatchAt (c :: rest) with
        | some m => simp
        | none =>
          exact (searchCmyk_isSome_iff rest).mpr
            ⟨pre', d1, d2, d3, d4, post, hcs, hn1, hn2, hn3, hn4, ha1, ha2, ha3, ha4⟩

/-- `COLOR_HEXA_PATTERN.search` fails exactly on texts without a hex match. -/
theorem searchHex_eq_none_iff (cs : List Char) :
    searchHex cs = none ↔ ¬ MatchesHexPattern cs := by
  rw [← searchHex_isSome_iff]
  cases searchHex cs <;> simp

/-- `COLOR_CMYK_PATTERN.search` fails exactly on texts without a CMYK match. -/
theorem searchCmyk_eq_none_iff (cs : List Char) :
    searchCmyk cs = none ↔ ¬ MatchesCmykPattern cs := by
  rw [← searchCmyk_isSome_iff]
  cases searchCmyk cs <;> simp

/-- `parse_color` raises exactly when neither pattern finds a match. -/
theorem parse_color_error_iff (value : String) :
    (∃ e, parse_color value = .error e) ↔
      searchHex value.data = none ∧ searchCmyk value.data = none := by
  constructor
  · rintro ⟨e, he⟩
    cases hh : searchHex value.data with
    | some m =>
      rw [parse_color, hh] at he
      simp at he
    | none =>
      cases hc : searchCmyk value.data with
      | some q =>
        obtain ⟨c, m, y, k⟩ := q
        rw [parse_color, hh, hc] at he
        simp at he
      | none => exact ⟨rfl, rfl⟩
  · rintro ⟨hh, hc⟩
    exact ⟨value, by rw [parse_color, hh, hc]⟩

end ColorLemmas

/-- C7: `parse_color` maps `"0,100,100,10"` to `PCMYKColor(0,100,100,10)`,
maps `"#ff0000"` to `HexColor(0xff0000)`, and raises a `ValueError` exactly
when the input contains a match of neither the hex pattern
`#([A-Fa-f0-9]{6}|[A-Fa-f0-9]{3})` nor the CMYK pattern
`(\d+,\d+,\d+,\d+)` (both patterns are searched, not anchored, as in the
source). -/
theorem parse_color_spec :
    parse_color "0,100,100,10" = .ok (.PCMYKColor 0 100 100 10) ∧
    parse_color "#ff0000" = .ok (.HexColor 0xff0000) ∧
    ∀ value : String, (∃ e, parse_color value = .error e) ↔
      (¬ MatchesHexPattern value.data ∧ ¬ MatchesCmykPattern value.data) := by
  refine ⟨by rfl, by rfl, fun value => ?_⟩
  rw [parse_color_error_iff, searchHex_eq_none_iff, searchCmyk_eq_none_iff]

/-- C7 (witness): the error characterization instantiated at the invalid
input `"zz"`. -/
theorem parse_color_spec_witness :
    (∃ e, parse_color "zz" = .error e) ↔
      (¬ MatchesHexPattern "zz".data ∧ ¬ MatchesCmykPattern "zz".data) :=
  parse_color_spec.2.2 "zz"

section WordPipeline

/-- Every pair yielded by `generate` holds the stripped form of one of the
input words. -/
theorem generate_mem_strip (widthFn : String → ℚ) (config : Config)
    (words : List String) (p : String × ℚ) (hp : p ∈ generate widthFn config words) :
    ∃ w ∈ words, p.1 = pyStrip w := by
  rw [generate, List.mem_filterMap] at hp
  obtain ⟨w, hw, hmap⟩ := hp
  rw [Option.map_eq_some'] at hmap
  obtain ⟨fs, -, hfs⟩ := hmap
  exact ⟨w, hw, by rw [← hfs]⟩

/-- Every element the group loop ever adds to the seen-set is the `some` of
a stripped word. -/
theorem processGroups_seen_strip (widthFn : String → ℚ) (config : Config) :
    ∀ (input : List (String × List String)) (seen : Finset (Option String))
      (x : Option String), x ∈ (processGroups widthFn config input seen).2 →
      x ∈ seen ∨ ∃ w : String, x = some (pyStrip w)
  | [], _, x, hx => Or.inl hx
  | (g, ws) :: rest, seen, x, hx => by
    simp only [processGroups] at hx
    rcases processGroups_seen_strip widthFn config rest _ x hx with h | h
    · rw [Finset.mem_union] at h
      rcases h with h | h
      · exact Or.inl h
      · rw [Finset.mem_image] at h
        obtain ⟨e, he, rfl⟩ := h
        rw [List.mem_toFinset, List.mem_map] at he
        obtain ⟨p, hp, rfl⟩ := he
        obtain ⟨w, -, hw⟩ := generate_mem_strip widthFn config _ p hp
        exact Or.inr ⟨w, by rw [hw]⟩
    · exact Or.inr h

end WordPipeline

/-- C8: `generate` emits exactly the stripped forms of its input words —
its output coincides with first stripping every word and then measuring,
sizing and drawing the stripped form — and therefore the seen-set, which
the orchestrator only ever extends with emitted words, accumulates stripped
forms only (while the earlier deduplication in `extract_valid_words` worked
on the unstripped words). -/
theorem generate_strips_words (widthFn : String → ℚ) (config : Config)
    (words : List String) :
    generate widthFn config words
      = (words.map pyStrip).filterMap
          (fun w => (fit_font_size config (widthFn w)).map (fun fs => (w, fs))) ∧
    (∀ p ∈ generate widthFn config words, ∃ w ∈ words, p.1 = pyStrip w) ∧
    (∀ (input : List (String × List String)) (seen : Finset (Option String))
      (x : Option String), x ∈ (processGroups widthFn config input seen).2 →
      x ∈ seen ∨ ∃ w : String, x = some (pyStrip w)) := by
  refine ⟨?_, generate_mem_strip widthFn config words,
    processGroups_seen_strip widthFn config⟩
  rw [generate, List.filterMap_map]
  rfl

/-- C8 (witness): instantiation on one concrete word list; the emitted pair
for `" a "` carries the stripped word. -/
theorem generate_strips_words_witness :
    ∀ p ∈ generate (fun _ => 0) defaultConfig [" a "],
      ∃ w ∈ ([" a "] : List String), p.1 = pyStrip w :=
  (generate_strips_words (fun _ => 0) defaultConfig [" a "]).2.1

/-- C9: the seen-set starts as `set(["", None])` — it contains the empty
string and `None` before any group is processed — and therefore, when
`allow_repeated` is off, the empty string never appears in the valid word
list `extract_valid_words` produces for any group of the run, first
occurrence included. -/
theorem initial_seen_empty_string_never_valid (widthFn : String → ℚ)
    (config : Config) (input : List (String × List String))
    (hallow : config.allow_repeated = false) :
    some "" ∈ initial_seen ∧ none ∈ initial_seen ∧
    ∀ r ∈ (mainRun widthFn config input).1, "" ∉ r.valid := by
  refine ⟨by decide, by decide, ?_⟩
  have aux : ∀ (gs : List (String × List String)) (seen : Finset (Option String)),
      some "" ∈ seen → ∀ r ∈ (processGroups widthFn config gs seen).1, "" ∉ r.valid := by
    intro gs
    induction gs with
    | nil => intro seen _ r hr; exact absurd hr (List.not_mem_nil r)
    | cons g rest ih =>
      intro seen hseen r hr
      obtain ⟨gname, gwords⟩ := g
      simp only [processGroups] at hr
      rcases List.mem_cons.mp hr with rfl | hr
      · intro hmem
        rw [hallow] at hmem
        rw [mem_extract_false_valid] at hmem
        exact hmem.2 hseen
      · refine ih _ ?_ r hr
        rw [Finset.mem_union]
        exact Or.inl hseen
  exact aux _ initial_seen (by decide)

/-- C9 (witness): a run on the single group `("g", [""])` (the empty string
as its only word, which the initial seen-set suppresses): the group's entry
has an empty valid list. -/
theorem initial_seen_empty_string_never_valid_witness :
    "" ∉ (⟨"g", [], some {""}, []⟩ : GroupResult).valid :=
  (initial_seen_empty_string_never_valid (fun _ => 0) defaultConfig
      [("g", [""])] rfl).2.2 ⟨"g", [], some {""}, []⟩ (by decide)

/-- C5: running the program on `{"animais": ["vaca", "vaca", "cachorro"]}`
with the default flags (and any `stringWidth` oracle under which both words
fit the page, as Helvetica at the default sizes does) produces exactly one
group whose emitted word list is exactly `["cachorro", "vaca"]` — the
duplicate `vaca` collapsed — that is, one PDF with 2 pages. -/
theorem mainRun_animais_end_to_end (widthFn : String → ℚ)
    (h1 : widthFn "vaca" / defaultConfig.page_width ≤
      defaultConfig.max_allowed_text_width_ratio)
    (h2 : widthFn "cachorro" / defaultConfig.page_width ≤
      defaultConfig.max_allowed_text_width_ratio) :
    (mainRun widthFn defaultConfig [("animais", ["vaca", "vaca", "cachorro"])]).1.map
        (fun r => (r.name, r.emitted, r.emitted.length)) =
      [("animais", ["cachorro", "vaca"], 2)] := by
  have hsort : (([("animais", ["vaca", "vaca", "cachorro"])] :
      List (String × List String)).insertionSort
        (fun a b => pyStrLe a.1 b.1 = true)) =
      [("animais", ["vaca", "vaca", "cachorro"])] := rfl
  rw [mainRun, hsort]
  simp only [processGroups]
  have hex : extract_valid_words ["vaca", "vaca", "cachorro"] initial_seen
      defaultConfig.allow_repeated = (["cachorro", "vaca"], some {"vaca"}) := by
    decide
  rw [hex]
  have hgen : generate widthFn defaultConfig ["cachorro", "vaca"] =
      [("cachorro", defaultConfig.font_size), ("vaca", defaultConfig.font_size)] := by
    rw [generate]
    simp only [List.filterMap_cons, List.filterMap_nil]
    rw [show pyStrip "cachorro" = "cachorro" from by decide,
      show pyStrip "vaca" = "vaca" from by decide]
    rw [fit_font_size, if_neg (not_lt.mpr h2), fit_font_size, if_neg (not_lt.mpr h1)]
    rfl
  rw [hgen]
  rfl

/-- C5 (witness): the theorem applied to the everywhere-zero width oracle,
under which every word fits. -/
theorem mainRun_animais_end_to_end_witness :
    (mainRun (fun _ => 0) defaultConfig
        [("animais", ["vaca", "vaca", "cachorro"])]).1.map
        (fun r => (r.name, r.emitted, r.emitted.length)) =
      [("animais", ["cachorro", "vaca"], 2)] :=
  mainRun_animais_end_to_end (fun _ => 0)
    (by norm_num [defaultConfig, mm]) (by norm_num [defaultConfig, mm])

section Orchestrator

/-- When a word fits, `generate` keeps it (stripped) and moves on. -/
theorem generate_cons_fits (widthFn : String → ℚ) (config : Config)
    (a : String) (l : List String)
    (hfit : widthFn (pyStrip a) / config.page_width ≤
      config.max_allowed_text_width_ratio) :
    generate widthFn config (a :: l) =
      (pyStrip a, config.font_size) :: generate widthFn config l := by
  rw [generate, generate, List.filterMap_cons, fit_font_size, if_neg (not_lt.mpr hfit)]
  rfl

/-- When every word fits and is already stripped, `generate` emits the word
list unchanged. -/
theorem generate_emits_all (widthFn : String → ℚ) (config : Config)
    (hfit : ∀ s : String, widthFn s / config.page_width ≤
      config.max_allowed_text_width_ratio) :
    ∀ ws : List String, (∀ x ∈ ws, pyStrip x = x) →
      (generate widthFn config ws).map Prod.fst = ws
  | [], _ => rfl
  | a :: l, htrim => by
    rw [generate_cons_fits widthFn config a l (hfit _), List.map_cons,
      generate_emits_all widthFn config hfit l
        (fun x hx => htrim x (List.mem_cons_of_mem a hx)),
      htrim a (List.mem_cons_self a l)]

/-- The group loop splits over list append, threading the seen-set. -/
theorem processGroups_append (widthFn : String → ℚ) (config : Config) :
    ∀ (l₁ l₂ : List (String × List String)) (seen : Finset (Option String)),
      processGroups widthFn config (l₁ ++ l₂) seen =
        ((processGroups widthFn config l₁ seen).1 ++
          (processGroups widthFn config l₂
            (processGroups widthFn config l₁ seen).2).1,
         (processGroups widthFn config l₂
            (processGroups widthFn config l₁ seen).2).2)
  | [], l₂, seen => by simp [processGroups]
  | (g, ws) :: l₁', l₂, seen => by
    simp only [List.cons_append, processGroups, List.append_eq]
    rw [processGroups_append widthFn config l₁' l₂]

/-- Output entries carry the group names in order. -/
theorem processGroups_map_name (widthFn : String → ℚ) (config : Config) :
    ∀ (gs : List (String × List String)) (seen : Finset (Option String)),
      ((processGroups widthFn config gs seen).1).map GroupResult.name = gs.map Prod.fst
  | [], _ => rfl
  | (g, ws) :: rest, seen => by
    simp only [processGroups, List.map_cons]
    rw [processGroups_map_name widthFn config rest]

/-- With `allow_repeated` off, every word fitting and every word already
stripped, the seen-set after a run over `gs` holds exactly its initial
elements plus (the `some` of) every word of every processed group. -/
theorem processGroups_seen_iff (widthFn : String → ℚ) (config : Config)
    (hallow : config.allow_repeated = false)
    (hfit : ∀ s : String, widthFn s / config.page_width ≤
      config.max_allowed_text_width_ratio) :
    ∀ (gs : List (String × List String)),
      (∀ g ∈ gs, ∀ x ∈ g.2, pyStrip x = x) →
      ∀ (seen : Finset (Option String)) (x : Option String),
        x ∈ (processGroups widthFn config gs seen).2 ↔
          x ∈ seen ∨ ∃ g ∈ gs, ∃ y ∈ g.2, x = some y
  | [], _, seen, x => by simp [processGroups]
  | (g, ws) :: rest, htrim, seen, x => by
    have htg : ∀ y ∈ ws, pyStrip y = y := fun y hy =>
      htrim (g, ws) (List.mem_cons_self _ _) y hy
    have htr : ∀ p ∈ rest, ∀ y ∈ p.2, pyStrip y = y := fun p hp =>
      htrim p (List.mem_cons_of_mem _ hp)
    simp only [processGroups]
    rw [processGroups_seen_iff widthFn config hallow hfit rest htr]
    have hvalid : ∀ y : String,
        y ∈ (extract_valid_words ws seen config.allow_repeated).1 ↔
        y ∈ ws ∧ some y ∉ seen := by
      intro y
      rw [hallow]
      exact mem_extract_false_valid ws seen y
    have hemit : ((generate widthFn config
        (extract_valid_words ws seen config.allow_repeated).1).map Prod.fst) =
        (extract_valid_words ws seen config.allow_repeated).1 :=
      generate_emits_all widthFn config hfit _
        (fun y hy => htg y ((hvalid y).mp hy).1)
    rw [hemit]
    constructor
    · rintro (hx | hgs)
      · rw [Finset.mem_union] at hx
        rcases hx with hx | hx
        · exact Or.inl hx
        · rw [Finset.mem_image] at hx
          obtain ⟨e, he, rfl⟩ := hx
          rw [List.mem_toFinset, hvalid] at he
          exact Or.inr ⟨(g, ws), List.mem_cons_self _ _, e, he.1, rfl⟩
      · obtain ⟨p, hp, y, hy, rfl⟩ := hgs
        exact Or.inr ⟨p, List.mem_cons_of_mem _ hp, y, hy, rfl⟩
    · rintro (hx | ⟨p, hp, y, hy, rfl⟩)
      · exact Or.inl (Finset.mem_union_left _ hx)
      · rcases List.mem_cons.mp hp with rfl | hp
        · by_cases hseen : some y ∈ seen
          · exact Or.inl (Finset.mem_union_left _ hseen)
          · refine Or.inl (Finset.mem_union_right _ ?_)
            rw [Finset.mem_image]
            refine ⟨y, ?_, rfl⟩
            rw [List.mem_toFinset, hvalid]
            exact ⟨hy, hseen⟩
        · exact Or.inr ⟨p, hp, y, hy, rfl⟩

end Orchestrator

/-- C10 (amended): groups are processed in ascending lexicographic order of
group name (not input-file order).  Provided `allow_repeated` is off, every
word of every group equals its stripped form, and every word fits the page
under the width oracle (so none is skipped), a word `w ≠ ""` that appears in
several groups is emitted only in the lexicographically smallest group
containing it: in the sorted order, the first group containing `w` has `w`
in its valid and emitted lists, and every later group containing `w` has
`w` in its ignored report and neither in its valid nor in its emitted
list.  (The stripping and fitting hypotheses cannot be dropped: see the
counterexample, where an unstripped word is emitted again by a later
group.) -/
theorem mainRun_sorted_groups_cross_dedup (widthFn : String → ℚ) (config : Config)
    (input : List (String × List String)) (w : String)
    (hallow : config.allow_repeated = false)
    (hfit : ∀ s : String, widthFn s / config.page_width ≤
      config.max_allowed_text_width_ratio)
    (htrim : ∀ g ∈ input, ∀ x ∈ g.2, pyStrip x = x)
    (hw : w ≠ "") :
    (((mainRun widthFn config input).1.map GroupResult.name).Sorted (· ≤ ·)) ∧
    ((mainRun widthFn config input).1.map GroupResult.name =
      (input.insertionSort (fun a b => pyStrLe a.1 b.1 = true)).map Prod.fst) ∧
    ∀ pre g rest,
      input.insertionSort (fun a b => pyStrLe a.1 b.1 = true) = pre ++ g :: rest →
      w ∈ g.2 → (∀ p ∈ pre, w ∉ p.2) →
      ∃ e tail, (mainRun widthFn config input).1 =
          (processGroups widthFn config pre initial_seen).1 ++ e :: tail ∧
        e.name = g.1 ∧ w ∈ e.valid ∧ w ∈ e.emitted ∧
        ∀ mid g2 rest2, rest = mid ++ g2 :: rest2 → w ∈ g2.2 →
          ∃ e2 tail2, tail =
              (processGroups widthFn config mid
                (processGroups widthFn config (pre ++ [g]) initial_seen).2).1 ++
              e2 :: tail2 ∧
            e2.name = g2.1 ∧ w ∉ e2.valid ∧ w ∉ e2.emitted ∧
            ∃ rep, e2.report = some rep ∧ w ∈ rep := by
  have hperm : (input.insertionSort
      (fun a b => pyStrLe a.1 b.1 = true)).Perm input :=
    List.perm_insertionSort _ _
  have htrimS : ∀ g ∈ input.insertionSort (fun a b => pyStrLe a.1 b.1 = true),
      ∀ x ∈ g.2, pyStrip x = x := fun g hg => htrim g (hperm.mem_iff.mp hg)
  refine ⟨?_, ?_, ?_⟩
  · rw [mainRun, processGroups_map_name, List.Sorted, List.pairwise_map]
    exact (List.sorted_insertionSort
      (fun a b : String × List String => pyStrLe a.1 b.1 = true) input).imp
      (fun h => (pyStrLe_iff _ _).mp h)
  · rw [mainRun, processGroups_map_name]
  · intro pre g rest hsplit hwg hwpre
    obtain ⟨gname, gws⟩ := g
    have htrimPre : ∀ p ∈ pre, ∀ x ∈ p.2, pyStrip x = x := fun p hp =>
      htrimS p (by rw [hsplit]; exact List.mem_append_left _ hp)
    have htrimG : ∀ x ∈ gws, pyStrip x = x := by
      refine htrimS (gname, gws) ?_
      rw [hsplit]
      exact List.mem_append_right _ (List.mem_cons_self _ _)
    have hwnotseen : some w ∉ (processGroups widthFn config pre initial_seen).2 := by
      intro hmem
      rcases (processGroups_seen_iff widthFn config hallow hfit pre htrimPre
          initial_seen (some w)).mp hmem with hini | ⟨p, hp, y, hy, heq⟩
      · rw [initial_seen] at hini
        simp only [Finset.mem_insert, Finset.mem_singleton] at hini
        rcases hini with h | h
        · exact hw (Option.some.injEq _ _ ▸ h)
        · exact Option.noConfusion h
      · rw [Option.some.injEq] at heq
        subst heq
        exact hwpre p hp hy
    have hvalid : ∀ y : String, y ∈ (extract_valid_words gws
        (processGroups widthFn config pre initial_seen).2
        config.allow_repeated).1 ↔
        y ∈ gws ∧ some y ∉ (processGroups widthFn config pre initial_seen).2 := by
      intro y
      rw [hallow]
      exact mem_extract_false_valid _ _ y
    have hemit : ((generate widthFn config (extract_valid_words gws
        (processGroups widthFn config pre initial_seen).2
        config.allow_repeated).1).map Prod.fst) =
        (extract_valid_words gws
          (processGroups widthFn config pre initial_seen).2
          config.allow_repeated).1 :=
      generate_emits_all widthFn config hfit _
        (fun y hy => htrimG y ((hvalid y).mp hy).1)
    rw [mainRun, hsplit, processGroups_append]
    simp only [processGroups]
    refine ⟨_, _, rfl, rfl, (hvalid w).mpr ⟨hwg, hwnotseen⟩, ?_, ?_⟩
    · rw [hemit]
      exact (hvalid w).mpr ⟨hwg, hwnotseen⟩
    · intro mid g2 rest2 hrest hwg2
      obtain ⟨g2name, g2ws⟩ := g2
      have htrimMid : ∀ p ∈ mid, ∀ x ∈ p.2, pyStrip x = x := fun p hp =>
        htrimS p (by
          rw [hsplit, hrest]
          exact List.mem_append_right _ (List.mem_cons_of_mem _
            (List.mem_append_left _ hp)))
      have hseen2 : (processGroups widthFn config (pre ++ [(gname, gws)])
          initial_seen).2 =
          (processGroups widthFn config pre initial_seen).2 ∪
            ((generate widthFn config (extract_valid_words gws
              (processGroups widthFn config pre initial_seen).2
              config.allow_repeated).1).map Prod.fst).toFinset.image some := by
        rw [processGroups_append]
        simp only [processGroups]
      have htrimPreG : ∀ p ∈ pre ++ [(gname, gws)], ∀ x ∈ p.2, pyStrip x = x := by
        intro p hp
        rcases List.mem_append.mp hp with hp | hp
        · exact htrimPre p hp
        · rw [List.mem_singleton] at hp
          subst hp
          exact htrimG
      have hwseen3 : some w ∈ (processGroups widthFn config mid
          (processGroups widthFn config (pre ++ [(gname, gws)])
            initial_seen).2).2 := by
        rw [processGroups_seen_iff widthFn config hallow hfit mid htrimMid]
        refine Or.inl ?_
        rw [processGroups_seen_iff widthFn config hallow hfit _ htrimPreG]
        exact Or.inr ⟨(gname, gws), List.mem_append_right _ (List.mem_cons_self _ _),
          w, hwg, rfl⟩
      have hvalid2 : ∀ y : String, y ∈ (extract_valid_words g2ws
          (processGroups widthFn config mid
            (processGroups widthFn config (pre ++ [(gname, gws)])
              initial_seen).2).2 config.allow_repeated).1 ↔
          y ∈ g2ws ∧ some y ∉ (processGroups widthFn config mid
            (processGroups widthFn config (pre ++ [(gname, gws)])
              initial_seen).2).2 := by
        intro y
        rw [hallow]
        exact mem_extract_false_valid _ _ y
      have hemit2 : ((generate widthFn config (extract_valid_words g2ws
          (processGroups widthFn config mid
            (processGroups widthFn config (pre ++ [(gname, gws)])
              initial_seen).2).2 config.allow_repeated).1).map Prod.fst) =
          (extract_valid_words g2ws
            (processGroups widthFn config mid
              (processGroups widthFn config (pre ++ [(gname, gws)])
                initial_seen).2).2 config.allow_repeated).1 := by
        refine generate_emits_all widthFn config hfit _ (fun y hy => ?_)
        refine htrimS (g2name, g2ws) ?_ y ((hvalid2 y).mp hy).1
        rw [hsplit, hrest]
        exact List.mem_append_right _ (List.mem_cons_of_mem _
          (List.mem_append_right _ (List.mem_cons_self _ _)))
      rw [hemit] at hseen2
      rw [hemit, hrest, ← hseen2]
      rw [processGroups_append]
      simp only [processGroups]
      obtain ⟨rep, hrep, hrepmem⟩ := extract_false_report g2ws
        (processGroups widthFn config mid
          (processGroups widthFn config (pre ++ [(gname, gws)]) initial_seen).2).2
      refine ⟨_, _, rfl, rfl, ?_, ?_, ?_⟩
      · intro hmem
        exact ((hvalid2 w).mp hmem).2 hwseen3
      · intro hmem
        refine ((hvalid2 w).mp ?_).2 hwseen3
        rw [← hemit2]
        exact hmem
      · refine ⟨rep, ?_, (hrepmem w).mpr ⟨hwg2, Or.inr hwseen3⟩⟩
        show (extract_valid_words g2ws
          (processGroups widthFn config mid
            (processGroups widthFn config (pre ++ [(gname, gws)])
              initial_seen).2).2 config.allow_repeated).2 = some rep
        rw [hallow]
        exact hrep

/-- C10 (counterexample): with default flags, the word `" x"` appearing in
the two groups `"a"` and `"b"` is kept in the valid list of *both* groups —
its stripped form `"x"` enters the seen-set after group `"a"`, but group
`"b"` deduplicates against the unstripped `" x"` — so the word is emitted
by both groups and the later group's ignored report is empty instead of
naming it, contradicting the claim that a word appearing in two groups is
emitted only in the lexicographically smallest one and reported as ignored
in every later group. -/
theorem mainRun_unstripped_word_emitted_twice :
    ((mainRun (fun _ => 0) defaultConfig
        [("a", [" x"]), ("b", [" x"])]).1.map GroupResult.valid) =
      [[" x"], [" x"]] ∧
    ((mainRun (fun _ => 0) defaultConfig
        [("a", [" x"]), ("b", [" x"])]).1.map GroupResult.emitted) =
      [["x"], ["x"]] ∧
    ((mainRun (fun _ => 0) defaultConfig
        [("a", [" x"]), ("b", [" x"])]).1.map GroupResult.report) =
      [some ∅, some ∅] := by
  have hsort : (([("a", [" x"]), ("b", [" x"])] :
      List (String × List String)).insertionSort
        (fun a b => pyStrLe a.1 b.1 = true)) =
      [("a", [" x"]), ("b", [" x"])] := by decide
  have hfit : ∀ s : String, ¬ (defaultConfig.max_allowed_text_width_ratio <
      (fun _ => (0 : ℚ)) s / defaultConfig.page_width) := by
    intro s
    norm_num [defaultConfig, mm]
  have hgen : ∀ seen : Finset (Option String),
      (generate (fun _ => 0) defaultConfig
        (extract_valid_words [" x"] seen defaultConfig.allow_repeated).1) =
      (extract_valid_words [" x"] seen defaultConfig.allow_repeated).1.map
        (fun v => (pyStrip v, defaultConfig.font_size)) := by
    intro seen
    rw [generate]
    have hf : fit_font_size defaultConfig 0 = some defaultConfig.font_size := by
      rw [fit_font_size, if_neg (hfit "x")]
    induction (extract_valid_words [" x"] seen defaultConfig.allow_repeated).1 with
    | nil => rfl
    | cons a l ih =>
      rw [List.filterMap_cons, List.map_cons, ih, hf]
      rfl
  rw [mainRun, hsort]
  simp only [processGroups]
  rw [hgen initial_seen]
  have hexa : extract_valid_words [" x"] initial_seen
      defaultConfig.allow_repeated = ([" x"], some ∅) := by decide
  rw [hexa]
  have hmap : (([" x"].map (fun v => (pyStrip v, defaultConfig.font_size))).map
      Prod.fst).toFinset.image some = {some "x"} := by
    rw [show ([" x"].map (fun v => (pyStrip v, defaultConfig.font_size))).map
        Prod.fst = ["x"] from by decide]
    decide
  rw [hmap]
  rw [hgen (initial_seen ∪ {some "x"})]
  have hexb : extract_valid_words [" x"] (initial_seen ∪ {some "x"})
      defaultConfig.allow_repeated = ([" x"], some ∅) := by decide
  rw [hexb]
  refine ⟨rfl, ?_, rfl⟩
  show [([" x"].map (fun v => (pyStrip v, defaultConfig.font_size))).map Prod.fst,
      ([" x"].map (fun v => (pyStrip v, defaultConfig.font_size))).map Prod.fst] =
    [["x"], ["x"]]
  decide

/-- C10 (witness): the amended theorem applied to the clean two-group input
`[("a", ["x"]), ("b", ["x"])]` with the everywhere-zero width oracle: the
output group names come out sorted. -/
theorem mainRun_sorted_groups_cross_dedup_witness :
    (((mainRun (fun _ => 0) defaultConfig
        [("a", ["x"]), ("b", ["x"])]).1.map GroupResult.name).Sorted (· ≤ ·)) :=
  (mainRun_sorted_groups_cross_dedup (fun _ => 0) defaultConfig
      [("a", ["x"]), ("b", ["x"])] "x" rfl
      (fun _ => by norm_num [defaultConfig, mm])
      (by decide) (by decide)).1

end Flashcards
